import Mathlib

/-!
# Verification of the resound audio-effects library

A shallow embedding, in Lean 4, of the data model and operations of the
`resound` streaming audio-effects repository (Go), together with theorems
settling the specification claims about it.

Modelling conventions:
* Go `float64` values are modelled as exact rationals (`ℚ`).  The algorithms
  under study use only field arithmetic, comparison, truncation and clamping
  on the paths the claims exercise, so the rational model mirrors the source
  statements one for one; transcendental easing curves (`ease.InSine`,
  `ease.InExpo`, `math.Sin`) are threaded through as explicit function
  parameters where the code calls them, never evaluated by any claim.
* Go `int16` / byte arithmetic (the PCM codec) is modelled over `ℤ` / `ℕ`
  with explicit reductions mod 2^16 and 2^8 at the points the source narrows.
* A Go slice of bytes is a `List ℕ` (values < 256 where well-formedness
  matters); `List.set` mirrors in-range Go stores (every store proved or
  evaluated by a claim is in range).
* Fallible Go calls (`Read`, `Seek`) are modelled with `Option`-valued
  results; an upstream `io.ReadSeeker` is a scripted state machine.
-/

set_option linter.unusedVariables false

namespace Resound

/-! ## PCM sample codec (`resound.go`: `AudioBuffer.Get` / `AudioBuffer.Set`)

`Get` reads bytes `[4i .. 4i+3]` as two little-endian signed 16-bit ints and
divides by 32767; `Set` multiplies by 32767, clamps to `[-32767, 32767]`,
narrows to int16 (Go conversion truncates toward zero) and stores the two
little-endian bytes. -/

/-- Go's `int16(lo) | int16(hi)<<8`: assembling an int16 from two bytes.
The shift of the high byte wraps modulo 2^16 into the signed range. -/
def toInt16 (u : ℕ) : ℤ :=
  if u % 65536 < 32768 then ((u % 65536 : ℕ) : ℤ) else ((u % 65536 : ℕ) : ℤ) - 65536

/-- Go's `clamp(v, min, max)` from `effects` / `utils.go` (checks max first). -/
def clampQ (v lo hi : ℚ) : ℚ :=
  if v > hi then hi else if v < lo then lo else v

/-- Go float-to-integer conversion: truncation toward zero. -/
def truncQ (q : ℚ) : ℤ :=
  q.num.tdiv q.den

/-- Go's `byte(x)` on a signed integer: the low 8 bits. -/
def byteOfInt (x : ℤ) : ℕ :=
  (x % 256).toNat

/-- Indexing a byte slice (all indices used by the claims are in range). -/
def bget (p : List ℕ) (i : ℕ) : ℕ :=
  p.getD i 0

/-- The int16 sample stored at frame `i`, left channel. -/
def sampleL (p : List ℕ) (i : ℕ) : ℤ :=
  toInt16 (bget p (4 * i) + 256 * bget p (4 * i + 1))

/-- The int16 sample stored at frame `i`, right channel. -/
def sampleR (p : List ℕ) (i : ℕ) : ℤ :=
  toInt16 (bget p (4 * i + 2) + 256 * bget p (4 * i + 3))

/-- `AudioBuffer.Get`, left channel: the sample divided by `math.MaxInt16`. -/
def abGetL (p : List ℕ) (i : ℕ) : ℚ :=
  (sampleL p i : ℚ) / 32767

/-- `AudioBuffer.Get`, right channel. -/
def abGetR (p : List ℕ) (i : ℕ) : ℚ :=
  (sampleR p i : ℚ) / 32767

/-- `AudioBuffer.Get`. -/
def abGet (p : List ℕ) (i : ℕ) : ℚ × ℚ :=
  (abGetL p i, abGetR p i)

/-- The int16 value `AudioBuffer.Set` narrows a channel value to:
scale by 32767, clamp to `[-32767, 32767]`, truncate toward zero. -/
def setQuant (v : ℚ) : ℤ :=
  truncQ (clampQ (v * 32767) (-32767) 32767)

/-- `AudioBuffer.Set`: writes the four little-endian bytes of the two
clamped, narrowed channel values at frame `i`.  `lcc >> 8` on int16 is an
arithmetic shift, i.e. floor division by 256. -/
def abSet (p : List ℕ) (i : ℕ) (l r : ℚ) : List ℕ :=
  let lcc := setQuant l
  let rcc := setQuant r
  ((((p.set (4 * i) (byteOfInt lcc)).set
      (4 * i + 1) (byteOfInt (lcc / 256))).set
      (4 * i + 2) (byteOfInt rcc)).set
      (4 * i + 3) (byteOfInt (rcc / 256)))

/-- A well-formed byte slice: every entry is an actual byte. -/
def WFBytes (p : List ℕ) : Prop :=
  ∀ b ∈ p, b < 256

/-- `mix` from `effects`: linear crossfade `v1 + (v2 - v1) * perc`. -/
def mix (v1 v2 perc : ℚ) : ℚ :=
  v1 + (v2 - v1) * perc

/-! ### Codec arithmetic lemmas -/

theorem toInt16_le (u : ℕ) : toInt16 u ≤ 32767 := by
  unfold toInt16; split_ifs <;> omega

theorem le_toInt16 (u : ℕ) : -32768 ≤ toInt16 u := by
  unfold toInt16; split_ifs <;> omega

theorem byteOfInt_lt (x : ℤ) : byteOfInt x < 256 := by
  unfold byteOfInt; omega

/-- Splitting an int16 value into its two little-endian bytes and
reassembling them recovers the value. -/
theorem toInt16_reconstruct {x : ℤ} (h1 : -32768 ≤ x) (h2 : x ≤ 32767) :
    toInt16 (byteOfInt x + 256 * byteOfInt (x / 256)) = x := by
  unfold toInt16 byteOfInt
  split_ifs <;> omega

theorem clampQ_le {v lo hi : ℚ} (h : lo ≤ hi) : clampQ v lo hi ≤ hi := by
  unfold clampQ; split_ifs <;> linarith

theorem le_clampQ {v lo hi : ℚ} (h : lo ≤ hi) : lo ≤ clampQ v lo hi := by
  unfold clampQ; split_ifs <;> linarith

/-- Truncation toward zero, characterized through floors. -/
theorem truncQ_eq (q : ℚ) : truncQ q = if 0 ≤ q then ⌊q⌋ else -⌊-q⌋ := by
  unfold truncQ
  split_ifs with h
  · rw [Rat.floor_def]
    exact Int.tdiv_eq_ediv (Rat.num_nonneg.mpr h) (Int.ofNat_nonneg q.den)
  · push_neg at h
    rw [Rat.floor_def, Rat.neg_num, Rat.neg_den]
    have hnn : 0 ≤ -q.num := by
      have : q.num < 0 := Rat.num_neg.mpr h
      omega
    rw [← Int.tdiv_eq_ediv hnn (Int.ofNat_nonneg q.den), Int.neg_tdiv]
    ring

theorem truncQ_intCast (x : ℤ) : truncQ (x : ℚ) = x := by
  rw [truncQ_eq]
  split_ifs with h
  · exact Int.floor_intCast x
  · rw [← Int.cast_neg, Int.floor_intCast]; ring

theorem setQuant_le (v : ℚ) : setQuant v ≤ 32767 := by
  unfold setQuant
  rw [truncQ_eq]
  have h1 : clampQ (v * 32767) (-32767) 32767 ≤ 32767 := clampQ_le (by norm_num)
  have h2 : (-32767 : ℚ) ≤ clampQ (v * 32767) (-32767) 32767 := le_clampQ (by norm_num)
  have hA := Int.floor_le_floor h1
  have hB := Int.floor_le_floor (show (-32767 : ℚ) ≤ -(-clampQ (v * 32767) (-32767) 32767) by
    linarith)
  have e1 : ⌊(32767 : ℚ)⌋ = 32767 := by norm_num
  have e2 : ⌊(-32767 : ℚ)⌋ = -32767 := by norm_num
  split_ifs with h
  · omega
  · have hD := Int.floor_le_floor (show (-32767 : ℚ) ≤ -clampQ (v * 32767) (-32767) 32767 by
      linarith)
    omega

theorem le_setQuant (v : ℚ) : -32767 ≤ setQuant v := by
  unfold setQuant
  rw [truncQ_eq]
  have h1 : clampQ (v * 32767) (-32767) 32767 ≤ 32767 := clampQ_le (by norm_num)
  have h2 : (-32767 : ℚ) ≤ clampQ (v * 32767) (-32767) 32767 := le_clampQ (by norm_num)
  have e1 : ⌊(32767 : ℚ)⌋ = 32767 := by norm_num
  have e2 : ⌊(-32767 : ℚ)⌋ = -32767 := by norm_num
  split_ifs with h
  · have hB := Int.floor_le_floor h2
    omega
  · have hC := Int.floor_le_floor (show -clampQ (v * 32767) (-32767) 32767 ≤ (32767 : ℚ) by
      linarith)
    omega

/-- Quantizing the normalized form of an int16 value that is at least
`-32767` recovers the value exactly. -/
theorem setQuant_exact {v : ℤ} (h1 : -32767 ≤ v) (h2 : v ≤ 32767) :
    setQuant ((v : ℚ) / 32767) = v := by
  unfold setQuant
  have hv : ((v : ℚ) / 32767) * 32767 = (v : ℚ) := by
    field_simp
  rw [hv]
  have hc : clampQ (v : ℚ) (-32767) 32767 = (v : ℚ) := by
    unfold clampQ
    have hA : ¬((v : ℚ) > 32767) := not_lt.2 (by exact_mod_cast h2)
    have hB : ¬((v : ℚ) < -32767) := by
      rw [not_lt]
      exact_mod_cast h1
    simp [hA, hB]
  rw [hc, truncQ_intCast]

/-- Quantizing the normalized form of `-32768` clamps it to `-32767`. -/
theorem setQuant_min : setQuant ((-32768 : ℚ) / 32767) = -32767 := by
  unfold setQuant
  have hv : ((-32768 : ℚ) / 32767) * 32767 = (-32768 : ℚ) := by field_simp
  rw [hv]
  have hc : clampQ (-32768 : ℚ) (-32767) 32767 = (-32767 : ℚ) := by
    unfold clampQ; norm_num
  rw [hc, show ((-32767 : ℚ)) = ((-32767 : ℤ) : ℚ) by norm_num, truncQ_intCast]

theorem bget_set_self {p : List ℕ} {j : ℕ} (h : j < p.length) (b : ℕ) :
    bget (p.set j b) j = b := by
  unfold bget
  rw [List.getD_eq_getElem?_getD, List.getElem?_set_self h]
  rfl

theorem bget_set_ne {p : List ℕ} {j j' : ℕ} (h : j ≠ j') (b : ℕ) :
    bget (p.set j b) j' = bget p j' := by
  unfold bget
  rw [List.getD_eq_getElem?_getD, List.getElem?_set_ne h, ← List.getD_eq_getElem?_getD]

theorem set_bget_self {p : List ℕ} {j : ℕ} (h : j < p.length) :
    p.set j (bget p j) = p := by
  apply List.ext_getElem?
  intro i
  by_cases hij : j = i
  · subst hij
    rw [List.getElem?_set_self h]
    unfold bget
    rw [List.getD_eq_getElem?_getD, List.getElem?_eq_getElem h]
    rfl
  · exact List.getElem?_set_ne hij

theorem sampleL_range (p : List ℕ) (i : ℕ) :
    -32768 ≤ sampleL p i ∧ sampleL p i ≤ 32767 :=
  ⟨le_toInt16 _, toInt16_le _⟩

theorem sampleR_range (p : List ℕ) (i : ℕ) :
    -32768 ≤ sampleR p i ∧ sampleR p i ≤ 32767 :=
  ⟨le_toInt16 _, toInt16_le _⟩

/-- `bget` through a single `List.set`, as one unconditional equation. -/
theorem bget_set (p : List ℕ) (j j' b : ℕ) :
    bget (p.set j b) j' =
      if j = j' then (if j < p.length then b else bget p j') else bget p j' := by
  unfold bget
  rw [List.getD_eq_getElem?_getD, List.getElem?_set, List.getD_eq_getElem?_getD]
  by_cases h1 : j = j'
  · subst h1
    by_cases h2 : j < p.length
    · simp [h2]
    · simp [h2, List.getElem?_eq_none (by omega : p.length ≤ j)]
  · simp [h1]

/-- Reading the left sample back after `abSet` yields the quantized stored value. -/
theorem sampleL_abSet (p : List ℕ) (i : ℕ) (l r : ℚ) (h : 4 * i + 3 < p.length) :
    sampleL (abSet p i l r) i = setQuant l := by
  unfold sampleL abSet
  simp only [bget_set, List.length_set]
  split_ifs <;> first
    | omega
    | exact toInt16_reconstruct (by have := le_setQuant l; omega) (setQuant_le l)

/-- Reading the right sample back after `abSet` yields the quantized stored value. -/
theorem sampleR_abSet (p : List ℕ) (i : ℕ) (l r : ℚ) (h : 4 * i + 3 < p.length) :
    sampleR (abSet p i l r) i = setQuant r := by
  unfold sampleR abSet
  simp only [bget_set, List.length_set]
  split_ifs <;> first
    | omega
    | exact toInt16_reconstruct (by have := le_setQuant r; omega) (setQuant_le r)

/-- Quantizing the normalized form of any int16 value moves it by at most one step. -/
theorem setQuant_close {v : ℤ} (h1 : -32768 ≤ v) (h2 : v ≤ 32767) :
    (setQuant ((v : ℚ) / 32767) - v).natAbs ≤ 1 := by
  by_cases hmin : v = -32768
  · subst hmin
    rw [show (((-32768 : ℤ) : ℚ)) = (-32768 : ℚ) by norm_num, setQuant_min]
    decide
  · rw [setQuant_exact (by omega) h2]
    simp

/-- The other bytes of a frame are untouched by `abSet` at a different frame,
and the length is preserved. -/
theorem length_abSet (p : List ℕ) (i : ℕ) (l r : ℚ) :
    (abSet p i l r).length = p.length := by
  unfold abSet
  simp [List.length_set]

/-- Writing back exactly the values read, when the stored samples are not the
unrepresentable `-32768`, is a byte-level no-op.  (Requires genuine bytes so the
reassembled sample determines the original bytes.) -/
theorem abSet_get_id (p : List ℕ) (i : ℕ) (hwf : WFBytes p) (h : 4 * i + 3 < p.length)
    (hL : sampleL p i ≠ -32768) (hR : sampleR p i ≠ -32768) :
    abSet p i (abGetL p i) (abGetR p i) = p := by
  have hb0 : bget p (4 * i) < 256 := by
    have : p.getD (4 * i) 0 ∈ p := by
      rw [List.getD_eq_getElem?_getD, List.getElem?_eq_getElem (by omega : 4 * i < p.length)]
      exact List.getElem_mem _
    exact hwf _ this
  have hb1 : bget p (4 * i + 1) < 256 := by
    have : p.getD (4 * i + 1) 0 ∈ p := by
      rw [List.getD_eq_getElem?_getD, List.getElem?_eq_getElem (by omega : 4 * i + 1 < p.length)]
      exact List.getElem_mem _
    exact hwf _ this
  have hb2 : bget p (4 * i + 2) < 256 := by
    have : p.getD (4 * i + 2) 0 ∈ p := by
      rw [List.getD_eq_getElem?_getD, List.getElem?_eq_getElem (by omega : 4 * i + 2 < p.length)]
      exact List.getElem_mem _
    exact hwf _ this
  have hb3 : bget p (4 * i + 3) < 256 := by
    have : p.getD (4 * i + 3) 0 ∈ p := by
      rw [List.getD_eq_getElem?_getD, List.getElem?_eq_getElem (by omega : 4 * i + 3 < p.length)]
      exact List.getElem_mem _
    exact hwf _ this
  have hqL : setQuant (abGetL p i) = sampleL p i := by
    unfold abGetL
    exact setQuant_exact (by have := (sampleL_range p i).1; omega) (sampleL_range p i).2
  have hqR : setQuant (abGetR p i) = sampleR p i := by
    unfold abGetR
    exact setQuant_exact (by have := (sampleR_range p i).1; omega) (sampleR_range p i).2
  -- the bytes abSet writes are exactly the bytes already present
  have hbyteL0 : byteOfInt (setQuant (abGetL p i)) = bget p (4 * i) := by
    rw [hqL]; unfold sampleL toInt16 byteOfInt
    split_ifs <;> omega
  have hbyteL1 : byteOfInt (setQuant (abGetL p i) / 256) = bget p (4 * i + 1) := by
    rw [hqL]; unfold sampleL toInt16 byteOfInt
    split_ifs <;> omega
  have hbyteR0 : byteOfInt (setQuant (abGetR p i)) = bget p (4 * i + 2) := by
    rw [hqR]; unfold sampleR toInt16 byteOfInt
    split_ifs <;> omega
  have hbyteR1 : byteOfInt (setQuant (abGetR p i) / 256) = bget p (4 * i + 3) := by
    rw [hqR]; unfold sampleR toInt16 byteOfInt
    split_ifs <;> omega
  show ((((p.set (4 * i) (byteOfInt (setQuant (abGetL p i)))).set
      (4 * i + 1) (byteOfInt (setQuant (abGetL p i) / 256))).set
      (4 * i + 2) (byteOfInt (setQuant (abGetR p i)))).set
      (4 * i + 3) (byteOfInt (setQuant (abGetR p i) / 256))) = p
  rw [hbyteL0, hbyteL1, hbyteR0, hbyteR1]
  rw [set_bget_self (by omega : 4 * i < p.length),
      set_bget_self (by omega : 4 * i + 1 < p.length),
      set_bget_self (by omega : 4 * i + 2 < p.length),
      set_bget_self (by omega : 4 * i + 3 < p.length)]

/-- The quantization step, read back in normalized amplitude, is at most `1/32767`. -/
theorem quant_step_small {w v : ℤ} (h : (w - v).natAbs ≤ 1) :
    |(w : ℚ) / 32767 - (v : ℚ) / 32767| ≤ 1 / 32767 := by
  rw [div_sub_div_same, abs_div, show |(32767 : ℚ)| = 32767 by norm_num,
      div_le_div_iff_of_pos_right (by norm_num : (0 : ℚ) < 32767)]
  have habs : |(w - v : ℤ)| ≤ (1 : ℤ) := by
    rw [Int.abs_eq_natAbs]; exact_mod_cast h
  calc |(w : ℚ) - (v : ℚ)| = |((w - v : ℤ) : ℚ)| := by push_cast; ring_nf
    _ ≤ 1 := by rw [← Int.cast_abs]; exact_mod_cast habs

/-- **C8** — For every audio buffer whose byte length is a multiple of 4 and
every valid frame index `i`, reading the frame with `Get` and writing the
same values back with `Set` changes each stored sample by at most one 16-bit
quantization step, i.e. the get/set round-trip is exact within `1/32767` of
normalized amplitude. -/
theorem c8_get_set_roundtrip (p : List ℕ) (k i : ℕ)
    (hlen : p.length = 4 * k) (hi : i < k) :
    (sampleL (abSet p i (abGetL p i) (abGetR p i)) i - sampleL p i).natAbs ≤ 1 ∧
    (sampleR (abSet p i (abGetL p i) (abGetR p i)) i - sampleR p i).natAbs ≤ 1 ∧
    |abGetL (abSet p i (abGetL p i) (abGetR p i)) i - abGetL p i| ≤ 1 / 32767 ∧
    |abGetR (abSet p i (abGetL p i) (abGetR p i)) i - abGetR p i| ≤ 1 / 32767 := by
  have hb : 4 * i + 3 < p.length := by omega
  have hSL : sampleL (abSet p i (abGetL p i) (abGetR p i)) i = setQuant (abGetL p i) :=
    sampleL_abSet p i _ _ hb
  have hSR : sampleR (abSet p i (abGetL p i) (abGetR p i)) i = setQuant (abGetR p i) :=
    sampleR_abSet p i _ _ hb
  have hCL : (setQuant (abGetL p i) - sampleL p i).natAbs ≤ 1 := by
    unfold abGetL
    exact setQuant_close (sampleL_range p i).1 (sampleL_range p i).2
  have hCR : (setQuant (abGetR p i) - sampleR p i).natAbs ≤ 1 := by
    unfold abGetR
    exact setQuant_close (sampleR_range p i).1 (sampleR_range p i).2
  have hL2 : |abGetL (abSet p i (abGetL p i) (abGetR p i)) i - abGetL p i| ≤ 1 / 32767 := by
    have e1 : abGetL (abSet p i (abGetL p i) (abGetR p i)) i
        = (setQuant (abGetL p i) : ℚ) / 32767 := by
      show (sampleL (abSet p i (abGetL p i) (abGetR p i)) i : ℚ) / 32767 = _
      rw [hSL]
    have e2 : abGetL p i = (sampleL p i : ℚ) / 32767 := rfl
    rw [e1]
    conv_lhs => rw [e2]
    exact quant_step_small hCL
  have hR2 : |abGetR (abSet p i (abGetL p i) (abGetR p i)) i - abGetR p i| ≤ 1 / 32767 := by
    have e1 : abGetR (abSet p i (abGetL p i) (abGetR p i)) i
        = (setQuant (abGetR p i) : ℚ) / 32767 := by
      show (sampleR (abSet p i (abGetL p i) (abGetR p i)) i : ℚ) / 32767 = _
      rw [hSR]
    have e2 : abGetR p i = (sampleR p i : ℚ) / 32767 := rfl
    rw [e1]
    conv_lhs => rw [e2]
    exact quant_step_small hCR
  exact ⟨by rw [hSL]; exact hCL, by rw [hSR]; exact hCR, hL2, hR2⟩

/-- **C8 witness** — the round-trip bound evaluated on the concrete frame
`(-32768, 32767)`, the only sample where the step is actually taken. -/
theorem c8_get_set_roundtrip_witness :
    [0, 128, 255, 127].length = 4 * 1 ∧
    (sampleL (abSet [0, 128, 255, 127] 0 (abGetL [0, 128, 255, 127] 0)
        (abGetR [0, 128, 255, 127] 0)) 0 - sampleL [0, 128, 255, 127] 0).natAbs ≤ 1 := by
  refine ⟨rfl, ?_⟩
  exact (c8_get_set_roundtrip [0, 128, 255, 127] 1 0 rfl (by decide)).1

/-! ## PitchShift's circular buffer (`effects` source, `circularBuffer`)

`newCircularBuffer` allocates the backing slice with `make([][2]float64,
maxSize)`, i.e. at full length and zero-initialized, from the start. -/

structure CircularBuffer where
  buffer : List (ℚ × ℚ)
  maxSize : ℕ
  readIndex : ℚ
  writeIndex : ℕ
deriving DecidableEq

def newCircularBuffer (maxSize : ℕ) : CircularBuffer :=
  { maxSize := maxSize
    buffer := List.replicate maxSize (0, 0)
    readIndex := 0
    writeIndex := 0 }

/-- `circularBuffer.write`: store at the write cursor, advance, wrap. -/
def CircularBuffer.write (c : CircularBuffer) (l r : ℚ) : CircularBuffer :=
  { c with
    buffer := c.buffer.set c.writeIndex (l, r)
    writeIndex := if c.writeIndex + 1 ≥ c.maxSize then 0 else c.writeIndex + 1 }

/-- `circularBuffer.readWriteDistance`: shortest circular distance between
the read and write cursors. -/
def CircularBuffer.readWriteDistance (c : CircularBuffer) : ℚ :=
  let r := c.readIndex
  let w : ℚ := (c.writeIndex : ℚ)
  let m : ℚ := (c.maxSize : ℚ)
  let distance := |r - w|
  if distance > m / 2 then min (|m - r| + w) (|m - w| + r) else distance

/-- `circularBuffer.incrementRead`: advance the fractional read cursor by
`value`, wrapping once past the buffer length. -/
def CircularBuffer.incrementRead (c : CircularBuffer) (value : ℚ) : CircularBuffer :=
  let ri := c.readIndex + value
  { c with readIndex := if ri ≥ (c.buffer.length : ℚ) then ri - (c.buffer.length : ℚ) else ri }

/-- `circularBuffer.BufferFull`: the backing slice has reached `maxSize`. -/
def CircularBuffer.BufferFull (c : CircularBuffer) : Bool :=
  c.buffer.length == c.maxSize

/-- The slot index `circularBuffer.read` accesses for a given tap offset:
the truncated read cursor plus the offset, wrapped once. -/
def CircularBuffer.readIndexAt (c : CircularBuffer) (offset : ℤ) : ℤ :=
  let ri := truncQ c.readIndex + offset
  if ri ≥ (c.maxSize : ℤ) then ri - (c.maxSize : ℤ) else ri

/-- `circularBuffer.read`: returns silence unless "full", otherwise the slot
at the wrapped truncated cursor plus offset. -/
def CircularBuffer.read (c : CircularBuffer) (offset : ℤ) : ℚ × ℚ :=
  if !c.BufferFull then (0, 0)
  else c.buffer.getD (c.readIndexAt offset).toNat (0, 0)

/-- Writing a list of frames in sequence. -/
def writeMany (c : CircularBuffer) (fs : List (ℚ × ℚ)) : CircularBuffer :=
  fs.foldl (fun acc f => acc.write f.1 f.2) c

theorem getD_replicate_self {α : Type} (n i : ℕ) (a : α) :
    (List.replicate n a).getD i a = a := by
  induction n generalizing i with
  | zero => simp [List.getD]
  | succ m ih =>
    cases i with
    | zero => simp [List.replicate_succ]
    | succ j => simp only [List.replicate_succ, List.getD_cons_succ]; exact ih j

/-- Sequential writes into a fresh-style buffer fill it front to back,
leaving the zero-initialized tail untouched. -/
theorem writeMany_fill (fs : List (ℚ × ℚ)) :
    ∀ (pre : List (ℚ × ℚ)) (m : ℕ) (c : CircularBuffer),
      c.buffer = pre ++ List.replicate m (0, 0) →
      c.writeIndex = pre.length →
      c.maxSize = pre.length + m →
      fs.length ≤ m →
      (writeMany c fs).buffer = pre ++ fs ++ List.replicate (m - fs.length) (0, 0) ∧
      (writeMany c fs).maxSize = c.maxSize ∧
      (writeMany c fs).readIndex = c.readIndex := by
  induction fs with
  | nil =>
    intro pre m c hbuf hw hmax hlen
    refine ⟨?_, rfl, rfl⟩
    show c.buffer = pre ++ [] ++ List.replicate m (0, 0)
    simpa using hbuf
  | cons f rest ih =>
    intro pre m c hbuf hw hmax hlen
    have hm : 1 ≤ m := by simp at hlen; omega
    have hstep : (c.write f.1 f.2).buffer
        = (pre ++ [f]) ++ List.replicate (m - 1) (0, 0) := by
      show (c.buffer.set c.writeIndex (f.1, f.2)) = _
      rw [hbuf, hw, List.set_append]
      simp only [lt_irrefl, if_neg (lt_irrefl pre.length), Nat.sub_self]
      rw [show m = (m - 1) + 1 by omega, List.replicate_succ]
      simp
    have hwidx : (c.write f.1 f.2).writeIndex
        = if pre.length + 1 ≥ c.maxSize then 0 else pre.length + 1 := by
      show (if c.writeIndex + 1 ≥ c.maxSize then 0 else c.writeIndex + 1) = _
      rw [hw]
    have hmax' : (c.write f.1 f.2).maxSize = c.maxSize := rfl
    have hread' : (c.write f.1 f.2).readIndex = c.readIndex := rfl
    by_cases hfill : m = 1
    · -- this write fills the last free slot; the rest list must be empty
      have hrest : rest = [] := by
        subst hfill
        simp only [List.length_cons] at hlen
        exact List.length_eq_zero.mp (by omega)
      subst hrest hfill
      refine ⟨?_, hmax', hread'⟩
      show (c.write f.1 f.2).buffer = pre ++ [f] ++ List.replicate (1 - [f].length) (0, 0)
      rw [hstep]
      simp
    · -- the buffer is not yet full after this write
      have hm2 : 2 ≤ m := by omega
      have hwidx2 : (c.write f.1 f.2).writeIndex = (pre ++ [f]).length := by
        rw [hwidx, hmax]
        simp only [List.length_append, List.length_cons, List.length_nil]
        have : ¬(pre.length + 1 ≥ pre.length + m) := by omega
        simp [this]
      have hres := ih (pre ++ [f]) (m - 1) (c.write f.1 f.2) hstep hwidx2
        (by rw [hmax', hmax]; simp; omega)
        (by simp at hlen; omega)
      simp only [writeMany, List.foldl_cons] at hres ⊢
      refine ⟨?_, by rw [hres.2.1, hmax'], by rw [hres.2.2, hread']⟩
      rw [hres.1]
      have hcnt : m - 1 - rest.length = m - (f :: rest).length := by
        simp only [List.length_cons]; omega
      rw [hcnt]
      simp [List.append_assoc]

/-- **C1 counterexample** — the circular buffer of a fresh ring of capacity 4
reports *full* (not "not yet full") before anything has been read or written,
because `make` allocates the backing slice at full length; and after a single
write (fewer than `N = 4` frames), the primary tap already reads back the
written frame rather than silence. -/
theorem c1_counterexample :
    (newCircularBuffer 4).BufferFull = true ∧
    ((newCircularBuffer 4).write 1 1).read 0 = (1, 1) := by
  constructor
  · rfl
  · rfl

/-- **C1 (amended)** — For every newly constructed ring of capacity `N ≥ 1`,
`BufferFull` reports `true` from the start (the backing slice is allocated at
full length), every tap reads silence `(0,0)` before any write (the slice is
zero-initialized, so a read of a never-written slot yields silence and never
contributes signal), and after writing `k ≤ N` frames the slots `k, …, N-1`
still hold `(0,0)`. -/
theorem c1_ring_silence (N : ℕ) (hN : 1 ≤ N) (off : ℤ)
    (fs : List (ℚ × ℚ)) (hfs : fs.length ≤ N) (j : ℕ) (hj : fs.length ≤ j) :
    (newCircularBuffer N).BufferFull = true ∧
    (newCircularBuffer N).read off = (0, 0) ∧
    (writeMany (newCircularBuffer N) fs).buffer
      = fs ++ List.replicate (N - fs.length) (0, 0) ∧
    (writeMany (newCircularBuffer N) fs).buffer.getD j (0, 0) = (0, 0) := by
  have hfull : (newCircularBuffer N).BufferFull = true := by
    simp [CircularBuffer.BufferFull, newCircularBuffer]
  have hfill := writeMany_fill fs [] N (newCircularBuffer N) (by simp [newCircularBuffer])
    (by simp [newCircularBuffer]) (by simp [newCircularBuffer]) hfs
  refine ⟨hfull, ?_, by simpa using hfill.1, ?_⟩
  · unfold CircularBuffer.read
    rw [hfull]
    simp only [Bool.not_true, Bool.false_eq_true, if_false]
    show (List.replicate N ((0 : ℚ), (0 : ℚ))).getD _ (0, 0) = (0, 0)
    exact getD_replicate_self ..
  · rw [show (writeMany (newCircularBuffer N) fs).buffer
        = fs ++ List.replicate (N - fs.length) (0, 0) by simpa using hfill.1]
    unfold bget at *
    rw [List.getD_eq_getElem?_getD, List.getElem?_append_right (by omega)]
    rw [← List.getD_eq_getElem?_getD]
    exact getD_replicate_self ..

/-- **C1 witness** — the amended statement evaluated at `N = 4` with two
frames written: the unwritten slots 2 and 3 still read silence. -/
theorem c1_ring_silence_witness :
    (writeMany (newCircularBuffer 4) [(1, 1), (1/2, 1/2)]).buffer.getD 2 (0, 0) = (0, 0) :=
  (c1_ring_silence 4 (by decide) 0 [(1, 1), (1/2, 1/2)] (by decide) 2 (by decide)).2.2.2

/-! ## PitchShift (`effects` source, `PitchShift`) -/

structure PitchShift where
  strength : ℚ
  pitch : ℚ
  active : Bool
  pitchBuffer : CircularBuffer
deriving DecidableEq

/-- `NewPitchShift`: defaults, with a ring of the given capacity. -/
def newPitchShift (bufferSize : ℕ) : PitchShift :=
  { strength := 1, active := true, pitch := 1, pitchBuffer := newCircularBuffer bufferSize }

/-- `PitchShift.SetPitch`: clamps below at 0 only — no upper bound. -/
def PitchShift.setPitch (p : PitchShift) (pitchFactor : ℚ) : PitchShift :=
  { p with pitch := if pitchFactor < 0 then 0 else pitchFactor }

/-- `PitchShift.Clone`: the struct literal copies `strength`, `pitch`,
`active` (and `Source`) but omits `pitchBuffer`, which is therefore the Go
zero value: a nil backing slice with `maxSize = 0` and zero cursors. -/
def PitchShift.clone (p : PitchShift) : PitchShift :=
  { strength := p.strength
    pitch := p.pitch
    active := p.active
    pitchBuffer := { buffer := [], maxSize := 0, readIndex := 0, writeIndex := 0 } }

/-- One frame of `PitchShift.ApplyEffect`: write the dry frame, read the two
taps, crossfade by the normalized read/write distance, mix with the dry
signal by `strength`, then advance the read cursor by `pitch`.
(`float64(p.pitchBuffer.maxSize / 2)` is integer division then conversion.) -/
def pitchShiftFrame (strength pitch : ℚ) (c : CircularBuffer) (l r : ℚ) :
    (ℚ × ℚ) × CircularBuffer :=
  let c1 := c.write l r
  let tapA := c1.read 0
  let tapB := c1.read ((c1.maxSize / 2 : ℕ) : ℤ)
  let cross := c1.readWriteDistance / ((c1.maxSize / 2 : ℕ) : ℚ)
  let cross2 := 1 - cross
  let fl := tapA.1 * cross + tapB.1 * cross2
  let fr := tapA.2 * cross + tapB.2 * cross2
  ((mix l fl strength, mix r fr strength), c1.incrementRead pitch)

/-- `PitchShift.ApplyEffect` over a byte buffer: loops `bytesRead / 4`
frames, reading with `Get`, writing with `Set`, threading the ring. -/
def pitchShiftApply (ps : PitchShift) (p : List ℕ) (bytesRead : ℕ) :
    List ℕ × CircularBuffer :=
  if !ps.active then (p, ps.pitchBuffer)
  else
    (List.range (bytesRead / 4)).foldl
      (fun acc i =>
        let l := abGetL acc.1 i
        let r := abGetR acc.1 i
        let step := pitchShiftFrame ps.strength ps.pitch acc.2 l r
        (abSet acc.1 i step.1.1 step.1.2, step.2))
      (p, ps.pitchBuffer)

/-- The state invariant of a PitchShift ring of capacity `N`. -/
def CBInv (N : ℕ) (c : CircularBuffer) : Prop :=
  c.maxSize = N ∧ c.buffer.length = N ∧ c.writeIndex < N ∧
    0 ≤ c.readIndex ∧ c.readIndex < (N : ℚ)

theorem write_inv {N : ℕ} {c : CircularBuffer} (hN : 1 ≤ N) (hc : CBInv N c)
    (l r : ℚ) : CBInv N (c.write l r) := by
  obtain ⟨h1, h2, h3, h4, h5⟩ := hc
  refine ⟨h1, by simpa [CircularBuffer.write] using h2, ?_, h4, h5⟩
  show (if c.writeIndex + 1 ≥ c.maxSize then 0 else c.writeIndex + 1) < N
  split_ifs with h
  · omega
  · omega

theorem incrementRead_inv {N : ℕ} {c : CircularBuffer} (hc : CBInv N c)
    {v : ℚ} (hv0 : 0 ≤ v) (hvN : v ≤ (N : ℚ)) : CBInv N (c.incrementRead v) := by
  obtain ⟨h1, h2, h3, h4, h5⟩ := hc
  refine ⟨h1, h2, h3, ?_, ?_⟩
  · show 0 ≤ (if c.readIndex + v ≥ (c.buffer.length : ℚ)
      then c.readIndex + v - (c.buffer.length : ℚ) else c.readIndex + v)
    rw [h2]
    split_ifs with h
    · linarith
    · linarith
  · show (if c.readIndex + v ≥ (c.buffer.length : ℚ)
      then c.readIndex + v - (c.buffer.length : ℚ) else c.readIndex + v) < (N : ℚ)
    rw [h2]
    split_ifs with h
    · linarith
    · push_neg at h; linarith

/-- The truncated read cursor of an invariant-satisfying ring lies in `[0, N)`. -/
theorem truncQ_readIndex_bounds {N : ℕ} {c : CircularBuffer} (hc : CBInv N c) :
    0 ≤ truncQ c.readIndex ∧ truncQ c.readIndex < (N : ℤ) := by
  obtain ⟨-, -, -, h4, h5⟩ := hc
  have he : truncQ c.readIndex = ⌊c.readIndex⌋ := by
    rw [truncQ_eq]; simp [h4]
  constructor
  · rw [he]; exact Int.floor_nonneg.mpr h4
  · rw [he]; exact_mod_cast Int.floor_lt.mpr (by exact_mod_cast h5)

/-- Both tap accesses of a frame step are in bounds. -/
theorem readIndexAt_bounds {N : ℕ} {c : CircularBuffer} (hc : CBInv N c)
    {off : ℤ} (hoff0 : 0 ≤ off) (hoffN : off ≤ (N : ℤ)) :
    0 ≤ c.readIndexAt off ∧ c.readIndexAt off < (N : ℤ) := by
  have hm : c.maxSize = N := hc.1
  obtain ⟨ht0, htN⟩ := truncQ_readIndex_bounds hc
  have heq : c.readIndexAt off =
      (if truncQ c.readIndex + off ≥ (N : ℤ) then truncQ c.readIndex + off - (N : ℤ)
       else truncQ c.readIndex + off) := by
    show (if truncQ c.readIndex + off ≥ (c.maxSize : ℤ)
        then truncQ c.readIndex + off - (c.maxSize : ℤ)
        else truncQ c.readIndex + off) = _
    rw [hm]
  refine ⟨?_, ?_⟩ <;> rw [heq] <;> (split_ifs with h) <;> omega

theorem pitchShiftFrame_inv {N : ℕ} {c : CircularBuffer} (hN : 1 ≤ N)
    (hc : CBInv N c) (strength pitch : ℚ) (hp0 : 0 ≤ pitch) (hpN : pitch ≤ (N : ℚ))
    (l r : ℚ) : CBInv N (pitchShiftFrame strength pitch c l r).2 :=
  incrementRead_inv (write_inv hN hc l r) hp0 hpN

theorem pitchShiftApply_inv {N : ℕ} (hN : 1 ≤ N) (ps : PitchShift)
    (hc : CBInv N ps.pitchBuffer) (hp0 : 0 ≤ ps.pitch) (hpN : ps.pitch ≤ (N : ℚ))
    (p : List ℕ) (bytesRead : ℕ) :
    CBInv N (pitchShiftApply ps p bytesRead).2 := by
  unfold pitchShiftApply
  split_ifs with h
  · exact hc
  · have main : ∀ (l : List ℕ) (acc : List ℕ × CircularBuffer), CBInv N acc.2 →
        CBInv N (l.foldl (fun acc i =>
          let l := abGetL acc.1 i
          let r := abGetR acc.1 i
          let step := pitchShiftFrame ps.strength ps.pitch acc.2 l r
          (abSet acc.1 i step.1.1 step.1.2, step.2)) acc).2 := by
      intro l
      induction l with
      | nil => intro acc hacc; exact hacc
      | cons x xs ih =>
        intro acc hacc
        exact ih _ (pitchShiftFrame_inv hN hacc ps.strength ps.pitch hp0 hpN _ _)
    exact main _ _ hc

/-- **C10** — For every PitchShift whose ring satisfies the capacity-`N`
well-formedness invariant and whose pitch factor `p` satisfies
`0 ≤ p ≤ N`, processing any chunk preserves the invariant (in particular the
fractional read cursor stays in `[0, N)`), every ring access of a frame
step — the primary tap at offset `0` and the opposite tap at offset `N / 2`,
taken after the in-bounds write — lands on an index in `[0, N)`, and
`SetPitch` imposes no upper bound: it accepts `N + 1` verbatim, so `p ≤ N`
is a genuine precondition, not a property the setter guarantees. -/
theorem c10_pitch_cursor_safety {N : ℕ} (hN : 1 ≤ N) (ps : PitchShift)
    (hc : CBInv N ps.pitchBuffer) (hp0 : 0 ≤ ps.pitch) (hpN : ps.pitch ≤ (N : ℚ))
    (p : List ℕ) (bytesRead : ℕ) :
    CBInv N (pitchShiftApply ps p bytesRead).2 ∧
    (∀ (c : CircularBuffer) (l r : ℚ), CBInv N c →
      c.writeIndex < c.buffer.length ∧
      0 ≤ (c.write l r).readIndexAt 0 ∧ (c.write l r).readIndexAt 0 < (N : ℤ) ∧
      0 ≤ (c.write l r).readIndexAt ((N / 2 : ℕ) : ℤ) ∧
      (c.write l r).readIndexAt ((N / 2 : ℕ) : ℤ) < (N : ℤ)) ∧
    (ps.setPitch ((N : ℚ) + 1)).pitch = (N : ℚ) + 1 := by
  refine ⟨pitchShiftApply_inv hN ps hc hp0 hpN p bytesRead, ?_, ?_⟩
  · intro c l r hc'
    have hw := write_inv hN hc' l r
    have b0 := readIndexAt_bounds hw (le_refl 0) (by exact_mod_cast Nat.zero_le N)
    have bh := @readIndexAt_bounds N (c.write l r) hw ((N / 2 : ℕ) : ℤ)
      (by exact_mod_cast Nat.zero_le (N / 2)) (by exact_mod_cast Nat.div_le_self N 2)
    obtain ⟨-, h2, h3, -, -⟩ := hc'
    exact ⟨by omega, b0.1, b0.2, bh.1, bh.2⟩
  · show (if ((N : ℚ) + 1) < 0 then 0 else ((N : ℚ) + 1)) = (N : ℚ) + 1
    have : ¬(((N : ℚ) + 1) < 0) := by push_neg; positivity
    simp [this]

/-- **C10 witness** — the safety statement instantiated at a fresh
`PitchShift` of ring capacity 4 processing one concrete two-frame chunk. -/
theorem c10_pitch_cursor_safety_witness :
    ((1 : ℕ) ≤ 4 ∧ CBInv 4 (newPitchShift 4).pitchBuffer ∧
      0 ≤ (newPitchShift 4).pitch ∧ (newPitchShift 4).pitch ≤ ((4 : ℕ) : ℚ)) ∧
    CBInv 4 (pitchShiftApply (newPitchShift 4) [255, 127, 255, 127, 0, 0, 0, 0] 8).2 ∧
    ((newPitchShift 4).setPitch (((4 : ℕ) : ℚ) + 1)).pitch = ((4 : ℕ) : ℚ) + 1 := by
  have hN : (1 : ℕ) ≤ 4 := by decide
  have hc : CBInv 4 (newPitchShift 4).pitchBuffer := by
    unfold CBInv newPitchShift newCircularBuffer
    refine ⟨rfl, by decide, by decide, by decide, by norm_num⟩
  have hp0 : 0 ≤ (newPitchShift 4).pitch := by decide
  have hpN : (newPitchShift 4).pitch ≤ ((4 : ℕ) : ℚ) := by norm_num [newPitchShift]
  have hm := c10_pitch_cursor_safety hN (newPitchShift 4) hc hp0 hpN
    [255, 127, 255, 127, 0, 0, 0, 0] 8
  exact ⟨⟨hN, hc, hp0, hpN⟩, hm.1, hm.2.2⟩

/-! ## Volume (`effects` source, current version) -/

inductive GoErr where
  | eof
  | other (code : ℕ)
deriving DecidableEq

/-- The outcome of one `Source.Read(p)` call: bytes read, error, and the
buffer contents after the call. -/
structure ReadResult where
  n : ℕ
  err : Option GoErr
  buf : List ℕ
deriving DecidableEq

structure Volume where
  strength : ℚ
  normalization : ℚ
  active : Bool
  src : Option ℕ
deriving DecidableEq

/-- `NewVolume`: strength 1, active, normalization 1. -/
def newVolume (src : Option ℕ) : Volume :=
  { src := src, strength := 1, active := true, normalization := 1 }

/-- `Volume.Clone` (current source): the struct literal copies `strength`,
`active` and `Source` but omits `normalization`, which is therefore the Go
zero value `0`. -/
def Volume.clone (v : Volume) : Volume :=
  { strength := v.strength, active := v.active, src := v.src, normalization := 0 }

/-- `Volume.ApplyEffect`.  `γ` stands for the transcendental
`ease.InSine(t, 0, 1, 1)` float curve, which the claims never evaluate; it is
applied exactly where the source applies it (`strength ≤ 1`). -/
def volumeApplyEffect (γ : ℚ → ℚ) (v : Volume) (p : List ℕ) (bytesRead : ℕ) : List ℕ :=
  if !v.active then p
  else
    let perc0 := if v.strength ≤ 1 then γ v.strength else v.strength
    let perc := perc0 * v.normalization
    (List.range (bytesRead / 4)).foldl
      (fun buf i => abSet buf i (abGetL buf i * perc) (abGetR buf i * perc)) p

/-- `Volume.Read`: pull from upstream; if the read errored, return the count
and error immediately (without applying the effect); otherwise apply the
effect over `bytesRead` and return. -/
def volumeRead (γ : ℚ → ℚ) (v : Volume) (res : ReadResult) : ℕ × Option GoErr × List ℕ :=
  if res.err.isSome then (res.n, res.err, res.buf)
  else (res.n, none, volumeApplyEffect γ v res.buf res.n)

/-! ## The historical `effects.go` Volume, whose `Clone` builds a `Pan` -/

structure VolumeO where
  Percent : ℚ
  active : Bool
  src : Option ℕ
deriving DecidableEq

structure PanO where
  Percent : ℚ
  active : Bool
  src : Option ℕ
deriving DecidableEq

/-- The `IEffect` variants relevant to the historical `Volume.Clone`. -/
inductive IEffectO where
  | volume (v : VolumeO)
  | pan (p : PanO)
deriving DecidableEq

/-- Historical `Volume.Clone` (`effects.go`): returns `&Pan{...}` — the
struct literal constructs a `Pan`, not a `Volume`. -/
def VolumeO.clone (v : VolumeO) : IEffectO :=
  .pan { Percent := v.Percent, active := v.active, src := v.src }

def IEffectO.isPan : IEffectO → Bool
  | .volume _ => false
  | .pan _ => true

/-- **C3** — `Clone` is *not* faithful on the code: evaluated at concrete
inputs, (a) the current `Volume.Clone` drops `normalization` (a fresh Volume
has normalization 1, its clone 0); (b) `PitchShift.Clone` drops the ring
entirely (capacity 1024 becomes 0 with a nil backing slice, so the clone's
buffer is not usable — its first write is out of bounds); (c) the historical
`effects.go` `Volume.Clone` returns a `Pan`, a different variant. -/
theorem c3_clone_defects :
    (newVolume (some 5)).normalization = 1 ∧
    ((newVolume (some 5)).clone).normalization = 0 ∧
    (newPitchShift 1024).pitchBuffer.maxSize = 1024 ∧
    ((newPitchShift 1024).clone).pitchBuffer.maxSize = 0 ∧
    ((newPitchShift 1024).clone).pitchBuffer.buffer = [] ∧
    (VolumeO.clone { Percent := 1/2, active := true, src := some 5 }).isPan = true := by
  refine ⟨rfl, rfl, rfl, rfl, rfl, rfl⟩

/-! ## DSPChannel (`dspChannel.go`)

`AddEffect(id, effect)` does `d.Effects[id] = effect` (map assignment:
replace the entry for an existing key, insert otherwise) and
`d.EffectOrder = append(d.EffectOrder, effect)` (unconditional append).
The Go map is modelled as an association list with replace-on-duplicate
update, which is observationally the map's behavior; ids and effects are
opaque tokens. -/

/-- Go map assignment `m[id] = v`: replace the entry for an existing key,
append a fresh entry otherwise.  (A Go map is unordered; the association
list order is a modelling artifact, lookups below are order-insensitive on
distinct keys.) -/
def mapSet : List (ℕ × ℕ) → ℕ → ℕ → List (ℕ × ℕ)
  | [], id, v => [(id, v)]
  | kv :: rest, id, v =>
    if kv.1 = id then (id, v) :: rest else kv :: mapSet rest id v

/-- Go map lookup `m[id]`. -/
def mapGet : List (ℕ × ℕ) → ℕ → Option ℕ
  | [], _ => none
  | kv :: rest, id => if kv.1 = id then some kv.2 else mapGet rest id

structure DSPChannelE where
  Effects : List (ℕ × ℕ)
  EffectOrder : List ℕ
deriving DecidableEq

def newDSPChannelE : DSPChannelE :=
  { Effects := [], EffectOrder := [] }

/-- `DSPChannel.AddEffect`. -/
def DSPChannelE.addEffect (d : DSPChannelE) (id eff : ℕ) : DSPChannelE :=
  { Effects := mapSet d.Effects id eff, EffectOrder := d.EffectOrder ++ [eff] }

/-- A sequence of `AddEffect` calls. -/
def addAll (d : DSPChannelE) (calls : List (ℕ × ℕ)) : DSPChannelE :=
  calls.foldl (fun d c => d.addEffect c.1 c.2) d

/-- Map assignment behaves as pointwise function update on lookups. -/
theorem mapGet_mapSet (m : List (ℕ × ℕ)) (id v id' : ℕ) :
    mapGet (mapSet m id v) id' = if id = id' then some v else mapGet m id' := by
  induction m with
  | nil =>
    simp [mapSet, mapGet]
  | cons kv rest ih =>
    simp only [mapSet]
    by_cases hk : kv.1 = id
    · rw [if_pos hk]
      simp only [mapGet]
      by_cases h' : id = id'
      · simp [h']
      · rw [if_neg h', if_neg h']
        rw [show ¬(kv.1 = id') by omega |> if_neg]
    · rw [if_neg hk]
      simp only [mapGet]
      by_cases hkv' : kv.1 = id'
      · rw [if_pos hkv', if_pos hkv']
        rw [show ¬(id = id') by omega |> if_neg]
      · rw [if_neg hkv', if_neg hkv', ih]

/-- The key list after an assignment: unchanged when the key was present,
extended by the key otherwise. -/
theorem mapSet_keys (m : List (ℕ × ℕ)) (id v : ℕ) :
    (mapSet m id v).map (·.1) =
      if (mapGet m id).isSome then m.map (·.1) else m.map (·.1) ++ [id] := by
  induction m with
  | nil => simp [mapSet, mapGet]
  | cons kv rest ih =>
    simp only [mapSet, mapGet]
    by_cases hk : kv.1 = id
    · simp [hk]
    · simp only [if_neg hk, List.map_cons, ih]
      split_ifs <;> simp

/-- A lookup misses exactly when the key is absent. -/
theorem mapGet_eq_none_iff (m : List (ℕ × ℕ)) (id : ℕ) :
    mapGet m id = none ↔ id ∉ m.map (·.1) := by
  induction m with
  | nil => simp [mapGet]
  | cons kv rest ih =>
    simp only [mapGet, List.map_cons, List.mem_cons]
    by_cases hk : kv.1 = id
    · simp [hk]
    · rw [if_neg hk]
      rw [ih]
      constructor
      · intro h
        rintro (h1 | h2)
        · exact hk h1.symm
        · exact h h2
      · intro h h2
        exact h (Or.inr h2)

/-- Assignment preserves key distinctness. -/
theorem mapSet_nodup {m : List (ℕ × ℕ)} (h : (m.map (·.1)).Nodup) (id v : ℕ) :
    ((mapSet m id v).map (·.1)).Nodup := by
  rw [mapSet_keys]
  split_ifs with hsome
  · exact h
  · have hnotmem : id ∉ m.map (·.1) := by
      rw [← mapGet_eq_none_iff]
      cases hval : mapGet m id with
      | none => rfl
      | some x => rw [hval] at hsome; simp at hsome
    rw [List.nodup_append]
    exact ⟨h, List.nodup_singleton id, by
      intro x hx
      simp only [List.mem_singleton]
      intro hxid
      subst hxid
      exact hnotmem hx⟩

/-- The value of the last `AddEffect` call for a given id, if any. -/
def lastWrite (calls : List (ℕ × ℕ)) (id : ℕ) : Option ℕ :=
  calls.foldl (fun acc c => if c.1 = id then some c.2 else acc) none

theorem addAll_order (calls : List (ℕ × ℕ)) :
    ∀ d, (addAll d calls).EffectOrder = d.EffectOrder ++ calls.map (·.2) := by
  induction calls with
  | nil => intro d; simp [addAll]
  | cons c rest ih =>
    intro d
    show (addAll (d.addEffect c.1 c.2) rest).EffectOrder = _
    rw [ih]
    simp [DSPChannelE.addEffect]

theorem addAll_mapGet (calls : List (ℕ × ℕ)) :
    ∀ (d : DSPChannelE) (id : ℕ),
      mapGet (addAll d calls).Effects id
        = calls.foldl (fun acc c => if c.1 = id then some c.2 else acc)
            (mapGet d.Effects id) := by
  induction calls with
  | nil => intro d id; rfl
  | cons c rest ih =>
    intro d id
    show mapGet (addAll (d.addEffect c.1 c.2) rest).Effects id = _
    rw [ih]
    show rest.foldl _ (mapGet (mapSet d.Effects c.1 c.2) id) = _
    rw [mapGet_mapSet]
    by_cases h : c.1 = id
    · simp [h]
    · simp [h, show ¬(c.1 = id) from h]

theorem addAll_nodup (calls : List (ℕ × ℕ)) :
    ∀ d : DSPChannelE, ((d.Effects.map (·.1)).Nodup) →
      (((addAll d calls).Effects.map (·.1)).Nodup) := by
  induction calls with
  | nil => intro d h; exact h
  | cons c rest ih =>
    intro d h
    exact ih (d.addEffect c.1 c.2) (mapSet_nodup h c.1 c.2)

/-- **C6** — For every sequence of `DSPChannel.AddEffect` calls, the
apply-order list is exactly the effects of the calls in call order (so it
grows by one entry per call regardless of id duplication, and after
re-adding under an existing id both the old and the new effect appear in
apply order), while the id→effect map keeps one entry per distinct id whose
value is the last effect added under that id. -/
theorem c6_addEffect_double_entry (calls : List (ℕ × ℕ)) (id : ℕ) :
    (addAll newDSPChannelE calls).EffectOrder = calls.map (·.2) ∧
    (addAll newDSPChannelE calls).EffectOrder.length = calls.length ∧
    ((addAll newDSPChannelE calls).Effects.map (·.1)).Nodup ∧
    mapGet (addAll newDSPChannelE calls).Effects id = lastWrite calls id ∧
    (∀ c ∈ calls, c.2 ∈ (addAll newDSPChannelE calls).EffectOrder) := by
  have horder : (addAll newDSPChannelE calls).EffectOrder = calls.map (·.2) := by
    rw [addAll_order]
    rfl
  refine ⟨horder, by rw [horder]; simp, ?_, ?_, ?_⟩
  · exact addAll_nodup calls newDSPChannelE (by simp [newDSPChannelE])
  · rw [addAll_mapGet]
    rfl
  · intro c hc
    rw [horder]
    exact List.mem_map.mpr ⟨c, hc, rfl⟩

/-! ## ChainEffects (`resound.go` and the historical `utils.go`)

Only the upstream (`Source`) pointer of each effect is touched by chaining,
so an effect is represented by its upstream reference; `eff i` points at the
`i`-th effect of the list being chained. -/

inductive Upstream where
  | missing
  | ext (s : ℕ)
  | eff (i : ℕ)
deriving DecidableEq

/-- Historical `utils.go` `ChainEffects(effects...)`: the loop
`for i := 1; i < len(effects); i++ { effects[i].setSource(effects[i-1]) }`.
The first effect's upstream is left untouched. -/
def chainEffectsNoSrc (srcs : List Upstream) : List Upstream :=
  (List.range' 1 (srcs.length - 1)).foldl
    (fun acc i => acc.set i (Upstream.eff (i - 1))) srcs

/-- Current `resound.go` `ChainEffects(source, effects...)`:
`effects[0].SetSource(source)` first, then the same rebinding loop. -/
def chainEffectsWithSrc (source : Upstream) (srcs : List Upstream) : List Upstream :=
  (List.range' 1 (srcs.length - 1)).foldl
    (fun acc i => acc.set i (Upstream.eff (i - 1))) (srcs.set 0 source)

/-- Both versions return `effects[len(effects)-1]` (panic on empty input). -/
def chainReturn (srcs : List Upstream) : Option ℕ :=
  if srcs.isEmpty then none else some (srcs.length - 1)

theorem getD_set_gen {α : Type} (p : List α) (j j' : ℕ) (b d : α) :
    (p.set j b).getD j' d =
      if j = j' then (if j < p.length then b else p.getD j' d) else p.getD j' d := by
  rw [List.getD_eq_getElem?_getD, List.getElem?_set, List.getD_eq_getElem?_getD]
  by_cases h1 : j = j'
  · subst h1
    by_cases h2 : j < p.length
    · simp [h2]
    · simp [h2, List.getElem?_eq_none (by omega : p.length ≤ j)]
  · simp [h1]

/-- Effect of the rebinding loop on each position. -/
theorem chain_fold_getD (idxs : List ℕ) :
    ∀ (base : List Upstream) (j : ℕ), (∀ i ∈ idxs, i < base.length) →
      (idxs.foldl (fun acc i => acc.set i (Upstream.eff (i - 1))) base).getD j .missing
        = if j ∈ idxs then Upstream.eff (j - 1) else base.getD j .missing := by
  induction idxs with
  | nil => intro base j _; simp
  | cons i rest ih =>
    intro base j hlt
    simp only [List.foldl_cons]
    rw [ih (base.set i (Upstream.eff (i - 1))) j
      (by intro k hk; rw [List.length_set]; exact hlt k (List.mem_cons_of_mem _ hk))]
    by_cases hr : j ∈ rest
    · simp [hr]
    · rw [if_neg hr]
      rw [getD_set_gen]
      by_cases hij : i = j
      · subst hij
        rw [if_pos rfl, if_pos (hlt i (List.mem_cons_self i rest))]
        simp
      · rw [if_neg hij]
        simp only [List.mem_cons]
        rw [if_neg (by tauto)]

theorem mem_range'_one (n j : ℕ) : j ∈ List.range' 1 n ↔ 1 ≤ j ∧ j < 1 + n := by
  constructor
  · intro h
    have := List.mem_range'_1.mp h
    omega
  · intro h
    exact List.mem_range'_1.mpr (by omega)

/-- **C7 counterexample** — the current `ChainEffects(source, effects…)`
rebinds the *first* effect's upstream to the supplied `source` argument:
with a first effect constructed with upstream `ext 3` and source `ext 7`,
after chaining the first effect's upstream is `ext 7`, not the upstream it
was constructed with. -/
theorem c7_counterexample :
    (chainEffectsWithSrc (.ext 7) [.ext 3, .missing]).getD 0 .missing = .ext 7 ∧
    Upstream.ext 7 ≠ Upstream.ext 3 := by
  constructor
  · rfl
  · decide

/-- **C7 (amended)** — Both `ChainEffects` variants wire the supplied
effects in exactly the order given, rebinding each effect's upstream to the
previous effect in the list and returning the final effect, with no
reordering and no deduplication; the historical variadic-only variant leaves
the first effect's constructed upstream in place, while the current variant
rebinds the first effect's upstream to the explicitly supplied `source`. -/
theorem c7_chain_wiring (srcs : List Upstream) (source : Upstream) (hne : srcs ≠ []) :
    (chainEffectsNoSrc srcs).length = srcs.length ∧
    (chainEffectsNoSrc srcs).getD 0 .missing = srcs.getD 0 .missing ∧
    (∀ i, 1 ≤ i → i < srcs.length →
      (chainEffectsNoSrc srcs).getD i .missing = .eff (i - 1)) ∧
    (chainEffectsWithSrc source srcs).getD 0 .missing = source ∧
    (∀ i, 1 ≤ i → i < srcs.length →
      (chainEffectsWithSrc source srcs).getD i .missing = .eff (i - 1)) ∧
    chainReturn srcs = some (srcs.length - 1) := by
  have hlen0 : 1 ≤ srcs.length := by
    cases srcs with
    | nil => exact absurd rfl hne
    | cons a l => simp
  have hidx : ∀ i ∈ List.range' 1 (srcs.length - 1), i < srcs.length := by
    intro i hi
    have := (mem_range'_one _ i).mp hi
    omega
  have hidx' : ∀ i ∈ List.range' 1 (srcs.length - 1), i < (srcs.set 0 source).length := by
    intro i hi
    rw [List.length_set]
    exact hidx i hi
  have hlenpres : ∀ (idxs : List ℕ) (base : List Upstream),
      (idxs.foldl (fun acc i => acc.set i (Upstream.eff (i - 1))) base).length
        = base.length := by
    intro idxs
    induction idxs with
    | nil => intro base; rfl
    | cons i rest ih =>
      intro base
      simp only [List.foldl_cons]
      rw [ih]
      exact List.length_set ..
  refine ⟨?_, ?_, ?_, ?_, ?_, ?_⟩
  · unfold chainEffectsNoSrc
    exact hlenpres _ _
  · unfold chainEffectsNoSrc
    rw [chain_fold_getD _ srcs 0 hidx]
    rw [if_neg (by intro h; have := (mem_range'_one _ 0).mp h; omega)]
  · intro i h1 h2
    unfold chainEffectsNoSrc
    rw [chain_fold_getD _ srcs i hidx]
    rw [if_pos ((mem_range'_one _ i).mpr (by omega))]
  · unfold chainEffectsWithSrc
    rw [chain_fold_getD _ (srcs.set 0 source) 0 hidx']
    rw [if_neg (by intro h; have := (mem_range'_one _ 0).mp h; omega)]
    rw [getD_set_gen]
    simp [hlen0, show 0 < srcs.length by omega]
  · intro i h1 h2
    unfold chainEffectsWithSrc
    rw [chain_fold_getD _ (srcs.set 0 source) i hidx']
    rw [if_pos ((mem_range'_one _ i).mpr (by omega))]
  · unfold chainReturn
    rw [if_neg (by simp [List.isEmpty_iff]; exact hne)]

/-- **C7 witness** — the amended wiring statement evaluated on a concrete
three-effect chain. -/
theorem c7_chain_wiring_witness :
    ([Upstream.ext 3, .missing, .missing] ≠ []) ∧
    (chainEffectsNoSrc [Upstream.ext 3, .missing, .missing]).getD 0 .missing
      = Upstream.ext 3 ∧
    (chainEffectsWithSrc (.ext 7) [Upstream.ext 3, .missing, .missing]).getD 0 .missing
      = Upstream.ext 7 ∧
    chainReturn [Upstream.ext 3, .missing, .missing] = some 2 := by
  have h := c7_chain_wiring [Upstream.ext 3, .missing, .missing] (.ext 7) (by decide)
  exact ⟨by decide, by rw [h.2.1]; rfl, h.2.2.2.1, h.2.2.2.2.2⟩

/-! ## Player (`player.go`)

A `Player.Read` first consults its DSP channel (inactive → zero frames
without touching the source; closed → close self, release source, EOF),
then pulls from the source, returning early on a non-EOF error, and
otherwise applies its own then the channel's effects over the `n` bytes
read.  Effects here are opaque buffer transforms; the upstream
`Source.Read` outcome is scripted by a `ReadResult`. -/

structure DSPChannelM where
  Active : Bool
  closed : Bool
  effectOrder : List (List ℕ → ℕ → List ℕ)

structure PlayerM where
  dsp : Option DSPChannelM
  effectOrder : List (List ℕ → ℕ → List ℕ)

structure PlayerReadOut where
  n : ℕ
  err : Option GoErr
  buf : List ℕ
  sourceConsumed : Bool
  playerClosed : Bool
  sourceReleased : Bool
deriving DecidableEq

/-- Go's `err != nil && err != io.EOF`. -/
def isHardErr : Option GoErr → Bool
  | some .eof => false
  | some _ => true
  | none => false

def applyEffects (effs : List (List ℕ → ℕ → List ℕ)) (buf : List ℕ) (n : ℕ) : List ℕ :=
  effs.foldl (fun b f => f b n) buf

/-- The body of `Player.Read` after the channel checks. -/
def playerReadBody (p : PlayerM) (res : ReadResult) : PlayerReadOut :=
  if isHardErr res.err then
    { n := res.n, err := res.err, buf := res.buf
      sourceConsumed := true, playerClosed := false, sourceReleased := false }
  else
    let buf1 := applyEffects p.effectOrder res.buf res.n
    let buf2 := match p.dsp with
      | some c => applyEffects c.effectOrder buf1 res.n
      | none => buf1
    { n := res.n, err := res.err, buf := buf2
      sourceConsumed := true, playerClosed := false, sourceReleased := false }

/-- `Player.Read`.  `bytes` is the caller's buffer before the call; `res`
scripts what `p.Source.Read(bytes)` would return if consulted. -/
def playerRead (p : PlayerM) (bytes : List ℕ) (res : ReadResult) : PlayerReadOut :=
  match p.dsp with
  | some c =>
    if !c.Active then
      { n := 0, err := none, buf := bytes
        sourceConsumed := false, playerClosed := false, sourceReleased := false }
    else if c.closed then
      { n := 0, err := some .eof, buf := bytes
        sourceConsumed := false, playerClosed := true, sourceReleased := true }
    else playerReadBody p res
  | none => playerReadBody p res

/-- **C5 counterexample** — a channel that is both inactive and closed: the
inactive branch wins, so the read returns zero frames with *no* error, does
not close the player, and does not release the source — contradicting "if
the channel is closed, read closes the Player itself, releases its source,
and returns end-of-stream". -/
theorem c5_counterexample :
    (some (DSPChannelM.mk false true []) = some (DSPChannelM.mk false true [])) ∧
    (playerRead { dsp := some (DSPChannelM.mk false true []), effectOrder := [] }
        [9, 9, 9, 9] { n := 4, err := none, buf := [9, 9, 9, 9] }).playerClosed = false ∧
    (playerRead { dsp := some (DSPChannelM.mk false true []), effectOrder := [] }
        [9, 9, 9, 9] { n := 4, err := none, buf := [9, 9, 9, 9] }).err = none := by
  exact ⟨rfl, rfl, rfl⟩

/-- **C5 (amended)** — For every Player routed through a DSP channel: if the
channel is inactive, `Read` returns zero frames without consuming its
upstream source, even when the channel is also closed; if the channel is
active and closed, `Read` closes the Player, releases its source, and
returns end-of-stream instead of audio. -/
theorem c5_channel_gating (p : PlayerM) (c : DSPChannelM) (bytes : List ℕ)
    (res : ReadResult) (hdsp : p.dsp = some c) :
    (c.Active = false →
      playerRead p bytes res =
        { n := 0, err := none, buf := bytes
          sourceConsumed := false, playerClosed := false, sourceReleased := false }) ∧
    (c.Active = true → c.closed = true →
      playerRead p bytes res =
        { n := 0, err := some .eof, buf := bytes
          sourceConsumed := false, playerClosed := true, sourceReleased := true }) := by
  constructor
  · intro hA
    unfold playerRead
    rw [hdsp]
    simp [hA]
  · intro hA hC
    unfold playerRead
    rw [hdsp]
    simp [hA, hC]

/-- **C5 witness** — the gating statement evaluated on concrete players. -/
theorem c5_channel_gating_witness :
    (some (DSPChannelM.mk true true []) = some (DSPChannelM.mk true true [])) ∧
    playerRead { dsp := some (DSPChannelM.mk true true []), effectOrder := [] }
        [9, 9, 9, 9] { n := 4, err := none, buf := [9, 9, 9, 9] } =
      { n := 0, err := some .eof, buf := [9, 9, 9, 9]
        sourceConsumed := false, playerClosed := true, sourceReleased := true } := by
  refine ⟨rfl, ?_⟩
  exact (c5_channel_gating { dsp := some (DSPChannelM.mk true true []), effectOrder := [] }
    (DSPChannelM.mk true true []) [9, 9, 9, 9] { n := 4, err := none, buf := [9, 9, 9, 9] }
    rfl).2 rfl rfl

/-- **C2 counterexample** — an upstream read that returns `n = 4` bytes
together with a non-nil error: `Volume.Read` propagates the error and the
count but returns the buffer *untransformed*, although applying the
transform over those bytes would have changed them (the frame holding the
sample `-32768` re-quantizes to `-32767`, flipping the low bytes).  At
strength 1 the sine easing evaluates to 1, so the identity stand-in `γ`
coincides with the source's curve at the evaluated point. -/
theorem c2_counterexample :
    volumeRead (fun t => t) (newVolume none)
        { n := 4, err := some (.other 0), buf := [0, 128, 0, 128] }
      = (4, some (.other 0), [0, 128, 0, 128]) ∧
    volumeApplyEffect (fun t => t) (newVolume none) [0, 128, 0, 128] 4
      = [1, 128, 1, 128] ∧
    ([1, 128, 1, 128] : List ℕ) ≠ [0, 128, 0, 128] := by
  refine ⟨rfl, ?_, by decide⟩
  have hA : abGetL [0, 128, 0, 128] 0 = (-32768 : ℚ) / 32767 := by
    unfold abGetL
    rw [show sampleL [0, 128, 0, 128] 0 = -32768 by decide]
    norm_num
  have hB : abGetR [0, 128, 0, 128] 0 = (-32768 : ℚ) / 32767 := by
    unfold abGetR
    rw [show sampleR [0, 128, 0, 128] 0 = -32768 by decide]
    norm_num
  have hq : setQuant ((-32768 : ℚ) / 32767 * (1 * 1)) = -32767 := by
    unfold setQuant
    rw [show ((-32768 : ℚ) / 32767 * (1 * 1) * 32767) = -32768 by field_simp]
    rw [show clampQ (-32768) (-32767) 32767 = -32767 by unfold clampQ; norm_num]
    rw [show ((-32767 : ℚ)) = ((-32767 : ℤ) : ℚ) by norm_num]
    unfold truncQ
    decide
  unfold volumeApplyEffect newVolume
  simp only [Bool.not_true, Bool.false_eq_true, if_false]
  rw [if_pos (by norm_num : (1 : ℚ) ≤ 1)]
  rw [show List.range (4 / 4) = [0] from rfl]
  simp only [List.foldl_cons, List.foldl_nil]
  rw [hA, hB]
  unfold abSet
  rw [hq]
  decide

/-- **C2 (amended)** — When the upstream read returns an error together with
`n` bytes, the error and the count are propagated unchanged to the caller,
but the effect's transform is *not* applied to the bytes that were read:
every effect returns early on any error (EOF included), and the Player
returns early on every non-EOF error; only on EOF does the Player still
apply its effects to the `n` bytes read. -/
theorem c2_error_propagation (γ : ℚ → ℚ) (v : Volume) (res : ReadResult)
    (p : PlayerM) (bytes : List ℕ) (k : ℕ) (hdsp : p.dsp = none) :
    (res.err.isSome → volumeRead γ v res = (res.n, res.err, res.buf)) ∧
    (res.err = some (.other k) →
      playerRead p bytes res =
        { n := res.n, err := some (.other k), buf := res.buf
          sourceConsumed := true, playerClosed := false, sourceReleased := false }) ∧
    (res.err = some .eof →
      playerRead p bytes res =
        { n := res.n, err := some .eof
          buf := applyEffects p.effectOrder res.buf res.n
          sourceConsumed := true, playerClosed := false, sourceReleased := false }) := by
  refine ⟨?_, ?_, ?_⟩
  · intro herr
    unfold volumeRead
    rw [if_pos herr]
  · intro herr
    unfold playerRead
    rw [hdsp]
    unfold playerReadBody
    rw [herr]
    simp [isHardErr]
  · intro herr
    unfold playerRead
    rw [hdsp]
    unfold playerReadBody
    rw [herr]
    simp [isHardErr, hdsp]

/-- **C2 witness** — the amended statement evaluated on a concrete erroring
read through a Volume and a channel-less Player. -/
theorem c2_error_propagation_witness :
    ((some (GoErr.other 3)).isSome = true) ∧
    volumeRead (fun t => t) (newVolume none)
        { n := 4, err := some (.other 3), buf := [0, 64, 0, 64] }
      = (4, some (.other 3), [0, 64, 0, 64]) ∧
    playerRead { dsp := none, effectOrder := [] } []
        { n := 4, err := some (.other 3), buf := [0, 64, 0, 64] }
      = { n := 4, err := some (.other 3), buf := [0, 64, 0, 64]
          sourceConsumed := true, playerClosed := false, sourceReleased := false } := by
  have h := c2_error_propagation (fun t => t) (newVolume none)
    { n := 4, err := some (.other 3), buf := [0, 64, 0, 64] }
    { dsp := none, effectOrder := [] } [] 3 rfl
  exact ⟨rfl, h.1 rfl, h.2.1 rfl⟩

/-! ## Delay (`effects` source, `Delay`)

`ApplyEffect` runs per frame: read the dry frame; if the ring is non-empty,
add `feedback` times the oldest ring entry to form the wet value and
crossfade the output toward it by `strength`; append the wet value to the
ring; pop the oldest entry once the ring exceeds `sampleRate * wait`
frames; write the output back only when the effect is active (the ring
updates regardless). -/

structure Delay where
  wait : ℚ
  strength : ℚ
  feedback : ℚ
  active : Bool
  buffer : List (ℚ × ℚ)
deriving DecidableEq

/-- `NewDelay` defaults. -/
def newDelay : Delay :=
  { wait := 1/10, strength := 1, feedback := 1/2, buffer := [], active := true }

/-- One loop iteration of `Delay.ApplyEffect` at frame `i`. -/
def delayFrame (sampleRate : ℕ) (d : Delay) (p : List ℕ) (i : ℕ) : List ℕ × Delay :=
  let l := abGetL p i
  let r := abGetR p i
  match d.buffer with
  | [] =>
    let buffer1 := d.buffer ++ [(l, r)]
    let buffer2 :=
      if (buffer1.length : ℤ) > truncQ ((sampleRate : ℚ) * d.wait) then buffer1.drop 1
      else buffer1
    (if d.active then abSet p i l r else p, { d with buffer := buffer2 })
  | h :: _ =>
    let bl := l + h.1 * d.feedback
    let br := r + h.2 * d.feedback
    let l' := mix l bl d.strength
    let r' := mix r br d.strength
    let buffer1 := d.buffer ++ [(bl, br)]
    let buffer2 :=
      if (buffer1.length : ℤ) > truncQ ((sampleRate : ℚ) * d.wait) then buffer1.drop 1
      else buffer1
    (if d.active then abSet p i l' r' else p, { d with buffer := buffer2 })

/-- `Delay.ApplyEffect` over `bytesRead / 4` frames.  The sample rate comes
from the ambient audio context. -/
def delayApply (sampleRate : ℕ) (d : Delay) (p : List ℕ) (bytesRead : ℕ) :
    List ℕ × Delay :=
  (List.range (bytesRead / 4)).foldl
    (fun acc i => delayFrame sampleRate acc.2 acc.1 i) (p, d)

theorem mix_zero (a b : ℚ) : mix a b 0 = a := by unfold mix; ring

theorem mix_self (a s : ℚ) : mix a a s = a := by unfold mix; ring

/-- A frame step never changes the parameters, only the ring. -/
theorem delayFrame_params (sampleRate : ℕ) (d : Delay) (p : List ℕ) (i : ℕ) :
    (delayFrame sampleRate d p i).2.strength = d.strength ∧
    (delayFrame sampleRate d p i).2.feedback = d.feedback ∧
    (delayFrame sampleRate d p i).2.active = d.active := by
  unfold delayFrame
  cases d.buffer <;> exact ⟨rfl, rfl, rfl⟩

/-- With `strength = 0`, or with `feedback = 0`, a frame step writes back
exactly the dry frame, which is a byte-level no-op away from the
unrepresentable sample `-32768`. -/
theorem delayFrame_identity (sampleRate : ℕ) (d : Delay) (p : List ℕ) (i : ℕ)
    (hcond : d.strength = 0 ∨ d.feedback = 0) (hwf : WFBytes p)
    (hlen : 4 * i + 3 < p.length)
    (hsL : sampleL p i ≠ -32768) (hsR : sampleR p i ≠ -32768) :
    (delayFrame sampleRate d p i).1 = p := by
  have hid : abSet p i (abGetL p i) (abGetR p i) = p := abSet_get_id p i hwf hlen hsL hsR
  unfold delayFrame
  cases hbuf : d.buffer with
  | nil =>
    split_ifs <;> first | exact hid | rfl
  | cons h t =>
    rcases hcond with hs | hf
    · rw [hs]
      simp only [mix_zero]
      split_ifs <;> first | exact hid | rfl
    · rw [hf]
      simp only [mul_zero, add_zero, mix_self]
      split_ifs <;> first | exact hid | rfl

/-- The dry-path identity, lifted over the whole per-chunk loop. -/
theorem delayApply_identity_aux (sampleRate : ℕ) (idxs : List ℕ) :
    ∀ (d : Delay) (p : List ℕ),
      (d.strength = 0 ∨ d.feedback = 0) → WFBytes p →
      (∀ i ∈ idxs, 4 * i + 3 < p.length ∧
        sampleL p i ≠ -32768 ∧ sampleR p i ≠ -32768) →
      (idxs.foldl (fun acc i => delayFrame sampleRate acc.2 acc.1 i) (p, d)).1 = p := by
  induction idxs with
  | nil => intro d p _ _ _; rfl
  | cons i rest ih =>
    intro d p hcond hwf hframes
    obtain ⟨hlen, hsL, hsR⟩ := hframes i (List.mem_cons_self i rest)
    have hstep : (delayFrame sampleRate d p i).1 = p :=
      delayFrame_identity sampleRate d p i hcond hwf hlen hsL hsR
    have hparams := delayFrame_params sampleRate d p i
    simp only [List.foldl_cons]
    rw [show (delayFrame sampleRate d p i)
        = (p, (delayFrame sampleRate d p i).2) from Prod.ext hstep rfl]
    exact ih (delayFrame sampleRate d p i).2 p
      (by rcases hcond with h | h
          · exact Or.inl (hparams.1.trans h)
          · exact Or.inr (hparams.2.1.trans h))
      hwf
      (fun j hj => hframes j (List.mem_cons_of_mem _ hj))

/-- Echo weight of a single frame when the ring is non-empty: the written
value is `dry + oldest * feedback * strength`. -/
theorem delayFrame_echo (sampleRate : ℕ) (d : Delay) (p : List ℕ) (i : ℕ)
    (h : ℚ × ℚ) (t : List (ℚ × ℚ)) (hbuf : d.buffer = h :: t) (hact : d.active = true) :
    (delayFrame sampleRate d p i).1 =
      abSet p i (abGetL p i + h.1 * d.feedback * d.strength)
                (abGetR p i + h.2 * d.feedback * d.strength) := by
  unfold delayFrame
  rw [hbuf]
  simp only [hact, if_true]
  rw [show mix (abGetL p i) (abGetL p i + h.1 * d.feedback) d.strength
      = abGetL p i + h.1 * d.feedback * d.strength by unfold mix; ring]
  rw [show mix (abGetR p i) (abGetR p i + h.2 * d.feedback) d.strength
      = abGetR p i + h.2 * d.feedback * d.strength by unfold mix; ring]

/-- **C4 counterexample** — Delay at `feedback = 0`, `strength = 1`, ring
length `wait × sampleRate = 1` frame, fed the frames `(1,1), (0,0)`: the
claim predicts output frame 1 to be the dry `0` plus the raw one-frame-ago
input `1`, i.e. `1`; the code outputs `0` — the echo term is weighted by
`feedback`, so at `feedback = 0` it vanishes entirely. -/
theorem c4_counterexample :
    abGetL (delayApply 10
        { wait := 1/10, strength := 1, feedback := 0, active := true, buffer := [] }
        [255, 127, 255, 127, 0, 0, 0, 0] 8).1 1 = 0 ∧
    abGetL [255, 127, 255, 127, 0, 0, 0, 0] 1
      + abGetL [255, 127, 255, 127, 0, 0, 0, 0] 0 = 1 ∧
    (0 : ℚ) ≠ 1 := by
  refine ⟨?_, ?_, by norm_num⟩
  · have hid := delayApply_identity_aux 10 (List.range (8 / 4))
      { wait := 1/10, strength := 1, feedback := 0, active := true, buffer := [] }
      [255, 127, 255, 127, 0, 0, 0, 0] (Or.inr rfl)
      (by intro b hb; fin_cases hb <;> decide)
      (by intro i hi
          have : i < 2 := by simpa using (List.mem_range.mp hi)
          interval_cases i
          · exact ⟨by decide, by decide, by decide⟩
          · exact ⟨by decide, by decide, by decide⟩)
    show abGetL (delayApply 10 _ _ 8).1 1 = 0
    unfold delayApply
    rw [hid]
    unfold abGetL
    rw [show sampleL [255, 127, 255, 127, 0, 0, 0, 0] 1 = 0 by decide]
    norm_num
  · unfold abGetL
    rw [show sampleL [255, 127, 255, 127, 0, 0, 0, 0] 1 = 0 by decide,
        show sampleL [255, 127, 255, 127, 0, 0, 0, 0] 0 = 32767 by decide]
    norm_num

/-- **C4 (amended)** — For a Delay driven frame-by-frame: with
`strength = 0` every output frame equals the dry input frame (byte-exact
whenever the stored samples are not the unrepresentable `-32768`); with
`feedback = 0` the output likewise equals the dry input for *every*
strength — the ring stores the raw dry frames and nothing compounds, but no
echo is audible because the oldest ring entry is weighted by
`feedback * strength` before reaching the output, as the per-frame echo
equation states. -/
theorem c4_delay_dry_paths (sampleRate : ℕ) (d : Delay) (p : List ℕ)
    (bytesRead : ℕ) (hwf : WFBytes p) (hn : bytesRead ≤ p.length)
    (hs : ∀ i, i < bytesRead / 4 →
      sampleL p i ≠ -32768 ∧ sampleR p i ≠ -32768) :
    (d.strength = 0 → (delayApply sampleRate d p bytesRead).1 = p) ∧
    (d.feedback = 0 → (delayApply sampleRate d p bytesRead).1 = p) ∧
    (∀ (i : ℕ) (h : ℚ × ℚ) (t : List (ℚ × ℚ)),
      d.buffer = h :: t → d.active = true →
      (delayFrame sampleRate d p i).1 =
        abSet p i (abGetL p i + h.1 * d.feedback * d.strength)
                  (abGetR p i + h.2 * d.feedback * d.strength)) := by
  have hframes : ∀ i ∈ List.range (bytesRead / 4), 4 * i + 3 < p.length ∧
      sampleL p i ≠ -32768 ∧ sampleR p i ≠ -32768 := by
    intro i hi
    have hilt : i < bytesRead / 4 := List.mem_range.mp hi
    refine ⟨?_, (hs i hilt).1, (hs i hilt).2⟩
    omega
  refine ⟨?_, ?_, ?_⟩
  · intro hstr
    exact delayApply_identity_aux sampleRate _ d p (Or.inl hstr) hwf hframes
  · intro hfb
    exact delayApply_identity_aux sampleRate _ d p (Or.inr hfb) hwf hframes
  · intro i h t hbuf hact
    exact delayFrame_echo sampleRate d p i h t hbuf hact

/-- **C4 witness** — the dry-path statement evaluated on a concrete Delay
with `strength = 0` over one frame. -/
theorem c4_delay_dry_paths_witness :
    (delayApply 10
        { wait := 1/10, strength := 0, feedback := 1/2, active := true, buffer := [] }
        [255, 127, 255, 127] 4).1 = [255, 127, 255, 127] := by
  have h := c4_delay_dry_paths 10
    { wait := 1/10, strength := 0, feedback := 1/2, active := true, buffer := [] }
    [255, 127, 255, 127] 4 (by intro b hb; fin_cases hb <;> decide) (by decide)
    (by intro i hi
        have : i < 1 := by simpa using hi
        interval_cases i
        exact ⟨by decide, by decide⟩)
  exact h.1 rfl

/-! ## AudioProperty.Analyze (`audioProperties.go`, the version returning
`(AnalysisResult, error)`)

The analyzed `io.ReadSeeker` is a scripted state machine: `pos` is the
stream's real position, and the script lists give each successive
operation's outcome.  A failing operation leaves the position unchanged
(one legitimate stream behavior; the claims quantify over streams, so one
witness stream suffices for a counterexample, and the positive theorem
holds for *every* script).  Script exhaustion acts as an erroring
operation — every terminating run of the Go code is a run with some finite
script.  A `Read` outcome carries the bytes the position advances by and
the frames visible in the shared 512-byte `byteSlice` afterwards. -/

structure AStream where
  pos : ℤ
  seekEndRes : Option ℤ
  seekBigRes : Option ℤ
  seekStartOk : List Bool
  reads : List (Option (ℤ × List (ℚ × ℚ)))
  seekCurOk : List Bool

/-- `stream.Seek(0, io.SeekEnd)`: returns the length and moves there. -/
def AStream.seekEnd (s : AStream) : Option ℤ × AStream :=
  match s.seekEndRes with
  | none => (none, s)
  | some len => (some len, { s with pos := len })

/-- `stream.Seek(math.MaxInt64, io.SeekStart)` (the infinite-loop fallback). -/
def AStream.seekBig (s : AStream) : Option ℤ × AStream :=
  match s.seekBigRes with
  | none => (none, s)
  | some len => (some len, { s with pos := len })

/-- `stream.Seek(0, io.SeekStart)`: on success the position becomes 0. -/
def AStream.seekStart0 (s : AStream) : Option ℤ × AStream :=
  match s.seekStartOk with
  | [] => (none, { s with seekStartOk := [] })
  | ok :: rest =>
    if ok then (some 0, { s with pos := 0, seekStartOk := rest })
    else (none, { s with seekStartOk := rest })

/-- `stream.Read(byteSlice)`. -/
def AStream.readOp (s : AStream) : Option (List (ℚ × ℚ)) × AStream :=
  match s.reads with
  | [] => (none, { s with reads := [] })
  | none :: rest => (none, { s with reads := rest })
  | some (adv, frames) :: rest =>
    (some frames, { s with pos := s.pos + adv, reads := rest })

/-- `stream.Seek(seekJump, io.SeekCurrent)`. -/
def AStream.seekCur (s : AStream) (off : ℤ) : Option ℤ × AStream :=
  match s.seekCurOk with
  | [] => (none, { s with seekCurOk := [] })
  | ok :: rest =>
    if ok then (some (s.pos + off), { s with pos := s.pos + off, seekCurOk := rest })
    else (none, { s with seekCurOk := rest })

/-- The per-window peak scan: `largest` updated with `|l|` then `|r|`. -/
def scanLargest (largest : ℚ) (frames : List (ℚ × ℚ)) : ℚ :=
  frames.foldl (fun acc f =>
    let acc1 := if |f.1| > acc then |f.1| else acc
    if |f.2| > acc1 then |f.2| else acc1) largest

inductive AnalyzeOut where
  | ok (normalization : ℚ)
  | err
deriving DecidableEq

/-- The code after the scan loop: seek back to the start (returning the
error if that fails), then return `1 / largest`. -/
def analyzeFinish (largest : ℚ) (s : AStream) : AnalyzeOut × AStream :=
  match s.seekStart0 with
  | (none, s1) => (.err, s1)
  | (some _, s1) => (.ok (1 / largest), s1)

/-- The scan loop.  Each iteration: read (an error breaks to the finish
path); update the peak; break to the finish path when `pos + seekJump ≥
length`; otherwise advance `pos` and relative-seek, *returning the error
with no restore* if that seek fails.  `fuel` bounds the iterations; it
exceeds the read script's length in every run considered, and running out
yields `err`. -/
def analyzeLoop : ℕ → ℤ → ℤ → ℤ → ℚ → AStream → AnalyzeOut × AStream
  | 0, _, _, _, _, s => (.err, s)
  | fuel' + 1, length, seekJump, pos, largest, s =>
    match s.readOp with
    | (none, s1) => analyzeFinish largest s1
    | (some frames, s1) =>
      let largest1 := scanLargest largest frames
      if pos + seekJump ≥ length then analyzeFinish largest1 s1
      else
        match s1.seekCur seekJump with
        | (none, s2) => (.err, s2)
        | (some _, s2) => analyzeLoop fuel' length seekJump (pos + seekJump) largest1 s2

/-- `Analyze` after the length has been determined: seek back to the start
(error ignored), compute `seekJump := length / scanCount` (Go int64
division truncates toward zero), and run the scan loop from position
counter 0 with `largest = 0`. -/
def analyzeCont (length scanCount : ℤ) (s : AStream) (fuel : ℕ) :
    AnalyzeOut × AStream :=
  let s1 := (s.seekStart0).2
  analyzeLoop fuel length (length.tdiv scanCount) 0 0 s1

/-- `AudioProperty.Analyze`: default the scan count, return the memoized
result untouched when already analyzed, otherwise determine the length via
`Seek(0, SeekEnd)` with the `Seek(MaxInt64, SeekStart)` fallback (returning
the error if both fail), and scan. -/
def analyze (analyzed : Bool) (prevNorm : ℚ) (scanCount : ℤ) (s : AStream)
    (fuel : ℕ) : AnalyzeOut × AStream :=
  let scanCount1 := if scanCount ≤ 0 then 64 else scanCount
  if analyzed then (.ok prevNorm, s)
  else
    match s.seekEnd with
    | (none, s1) =>
      match s1.seekBig with
      | (none, s2) => (.err, s2)
      | (some length, s2) => analyzeCont length scanCount1 s2 fuel
    | (some length, s1) => analyzeCont length scanCount1 s1 fuel

theorem seekStart0_ok {s : AStream} {v : ℤ} {s1 : AStream}
    (h : s.seekStart0 = (some v, s1)) : s1.pos = 0 := by
  unfold AStream.seekStart0 at h
  rcases hscript : s.seekStartOk with _ | ⟨ok, rest⟩ <;> rw [hscript] at h <;> dsimp only at h
  · simp at h
  · split_ifs at h with hok
    · rw [Prod.mk.injEq] at h
      rw [← h.2]
    · simp at h

theorem analyzeFinish_ok {largest : ℚ} {s : AStream} {norm : ℚ}
    (h : (analyzeFinish largest s).1 = .ok norm) :
    (analyzeFinish largest s).2.pos = 0 := by
  unfold analyzeFinish at h ⊢
  rcases hs : s.seekStart0 with ⟨r, s1⟩
  rw [hs] at h
  rcases r with _ | v
  · dsimp only at h
    simp at h
  · dsimp only
    exact seekStart0_ok hs

theorem analyzeLoop_ok (fuel : ℕ) :
    ∀ (length seekJump pos : ℤ) (largest : ℚ) (s : AStream) (norm : ℚ),
      (analyzeLoop fuel length seekJump pos largest s).1 = .ok norm →
      (analyzeLoop fuel length seekJump pos largest s).2.pos = 0 := by
  induction fuel with
  | zero =>
    intro length seekJump pos largest s norm h
    simp [analyzeLoop] at h
  | succ fuel' ih =>
    intro length seekJump pos largest s norm h
    unfold analyzeLoop at h ⊢
    rcases hread : s.readOp with ⟨res, s1⟩
    rw [hread] at h
    rcases res with _ | frames
    · dsimp only at h ⊢
      exact analyzeFinish_ok h
    · dsimp only at h ⊢
      split_ifs at h ⊢ with hbreak
      · exact analyzeFinish_ok h
      · rcases hcur : s1.seekCur seekJump with ⟨cres, s2⟩
        rw [hcur] at h
        rcases cres with _ | q
        · dsimp only at h
          simp at h
        · dsimp only at h ⊢
          exact ih _ _ _ _ _ _ h

/-- **C9 (amended)** — Whenever `Analyze` actually scans (it is not serving
the memoized result) and returns with a nil error, the stream position is 0
on return: success forces the final seek-to-start to have succeeded, for
every stream script, every scan count and every fuel.  The memoized path
returns without touching the stream at all (whatever its position), and —
as the counterexample shows — the error exits from a failed mid-scan
relative seek (or from the failed length-determination seeks) return
without restoring the position. -/
theorem c9_analyze_restores_position (prevNorm : ℚ) (scanCount : ℤ) (s : AStream)
    (fuel : ℕ) (norm : ℚ)
    (hok : (analyze false prevNorm scanCount s fuel).1 = .ok norm) :
    (analyze false prevNorm scanCount s fuel).2.pos = 0 ∧
    (∀ s' : AStream, analyze true prevNorm scanCount s' fuel = (.ok prevNorm, s')) := by
  constructor
  · unfold analyze analyzeCont at hok ⊢
    simp only [if_false, Bool.false_eq_true] at hok ⊢
    rcases hend : s.seekEnd with ⟨eres, s1⟩
    rw [hend] at hok
    rcases eres with _ | len
    · dsimp only at hok ⊢
      rcases hbig : s1.seekBig with ⟨bres, s2⟩
      rw [hbig] at hok
      rcases bres with _ | len2
      · dsimp only at hok
        simp at hok
      · dsimp only at hok ⊢
        exact analyzeLoop_ok fuel _ _ _ _ _ norm hok
    · dsimp only at hok ⊢
      exact analyzeLoop_ok fuel _ _ _ _ _ norm hok
  · intro s'
    unfold analyze
    simp

/-- **C9 counterexample** — a stream of length 1024 scanned with
`scanCount = 2` whose first relative seek fails: `Analyze` returns the
error with the stream position still at 512, not restored to 0. -/
theorem c9_counterexample :
    (analyze false 0 2
      { pos := 0, seekEndRes := some 1024, seekBigRes := none
        seekStartOk := [true], reads := [some (512, [])], seekCurOk := [false] }
      4).1 = .err ∧
    (analyze false 0 2
      { pos := 0, seekEndRes := some 1024, seekBigRes := none
        seekStartOk := [true], reads := [some (512, [])], seekCurOk := [false] }
      4).2.pos = 512 ∧
    (512 : ℤ) ≠ 0 := by
  refine ⟨rfl, rfl, by decide⟩

/-- **C9 witness** — a run whose single read errors (so the loop breaks to
the restore path) and whose restoring seeks succeed: the result is ok and
the final position is 0, starting from position 7. -/
theorem c9_analyze_restores_position_witness :
    ((analyze false 0 2
      { pos := 7, seekEndRes := some 1024, seekBigRes := none
        seekStartOk := [true, true], reads := [none], seekCurOk := [] }
      4).1 = AnalyzeOut.ok (1 / 0)) ∧
    (analyze false 0 2
      { pos := 7, seekEndRes := some 1024, seekBigRes := none
        seekStartOk := [true, true], reads := [none], seekCurOk := [] }
      4).2.pos = 0 := by
  refine ⟨rfl, ?_⟩
  exact (c9_analyze_restores_position 0 2
    { pos := 7, seekEndRes := some 1024, seekBigRes := none
      seekStartOk := [true, true], reads := [none], seekCurOk := [] }
    4 (1 / 0) rfl).1

end Resound
